import Mathlib

/-!
Verification of the candecode signal codec and writer registry against its
natural-language specification.  The Go sources are shallowly embedded:
`uint64` values are natural numbers reduced `% 2 ^ 64` wherever Go overflow
or shift semantics matter, byte buffers are `List ℕ` (each entry a byte),
`float64` scale/offset arithmetic is embedded exactly over `ℚ`, and Go's
`map` types become functions into `Option` or association lists.
-/

namespace Candecode

/-! ## Generic helpers -/

/-- A single Go bit test `(b >> i) & 1 == 1` agrees with `Nat.testBit`. -/
theorem shift_and_one_eq_one_iff (b i : ℕ) :
    (((b >>> i) &&& 1) = 1) ↔ b.testBit i = true := by
  rw [Nat.and_one_is_mod, Nat.shiftRight_eq_div_pow, Nat.testBit_to_div_mod]
  simp

/-- `uint64(1) << s` in Go: bit `s` when `s < 64`, zero otherwise. -/
theorem testBit_one_shiftLeft_mod (s j : ℕ) :
    ((1 <<< s) % 2 ^ 64).testBit j = (decide (j < 64) && decide (s = j)) := by
  rw [Nat.one_shiftLeft, Nat.testBit_mod_two_pow, Nat.testBit_two_pow]

/-- Two booleans are equal when they are equi-true. -/
theorem bool_eq_of_iff {a b : Bool} (h : a = true ↔ b = true) : a = b := by
  cases a <;> cases b <;> simp_all

/-- Folding a `|=`-style loop body accumulates exactly the union of the
per-iteration contributions, bit by bit. -/
theorem foldl_testBit_or {α : Type} (step : ℕ → α → ℕ) (c : α → ℕ → Bool)
    (hstep : ∀ r x j, (step r x).testBit j = (r.testBit j || c x j)) :
    ∀ (l : List α) (a : ℕ) (j : ℕ),
      (l.foldl step a).testBit j = (a.testBit j || l.any (fun x => c x j)) := by
  intro l
  induction l with
  | nil => intro a j; simp
  | cons x xs ih =>
    intro a j
    rw [List.foldl_cons, ih, hstep, List.any_cons, Bool.or_assoc]

/-- A sum of selected powers of two below `2 ^ n` is below `2 ^ n`. -/
theorem boolSum_lt (g : ℕ → Bool) :
    ∀ n, (∑ i in Finset.range n, if g i then 2 ^ i else 0) < 2 ^ n := by
  intro n
  induction n with
  | zero => simp
  | succ k ihk =>
    rw [Finset.sum_range_succ]
    have h1 : (if g k then 2 ^ k else 0) ≤ 2 ^ k := by split <;> simp
    have h2 : (2 : ℕ) ^ (k + 1) = 2 ^ k + 2 ^ k := by ring
    omega

/-- Bits of a sum of distinct powers of two selected by a boolean family. -/
theorem testBit_boolSum (g : ℕ → Bool) :
    ∀ n j, (∑ i in Finset.range n, if g i then 2 ^ i else 0).testBit j =
      (decide (j < n) && g j) := by
  intro n
  induction n with
  | zero => intro j; simp
  | succ m ih =>
    have hlt : (∑ i in Finset.range m, if g i then 2 ^ i else 0) < 2 ^ m :=
      boolSum_lt g m
    intro j
    rw [Finset.sum_range_succ]
    by_cases hg : g m
    · rw [if_pos hg, Nat.add_comm]
      rcases Nat.lt_trichotomy j m with hj | hj | hj
      · rw [Nat.testBit_two_pow_add_gt hj, ih]
        have h1 : decide (j < m) = true := by simpa using hj
        have h2 : decide (j < m + 1) = true := by simp; omega
        rw [h1, h2]
      · subst hj
        rw [Nat.testBit_two_pow_add_eq, Nat.testBit_lt_two_pow hlt]
        simp [hg]
      · have hbig : 2 ^ m + (∑ i in Finset.range m, if g i then 2 ^ i else 0) < 2 ^ j := by
          have : (2 : ℕ) ^ (m + 1) ≤ 2 ^ j := Nat.pow_le_pow_right (by omega) (by omega)
          have h2 : (2 : ℕ) ^ (m + 1) = 2 ^ m + 2 ^ m := by ring
          omega
        rw [Nat.testBit_lt_two_pow hbig]
        have : decide (j < m + 1) = false := by simp; omega
        rw [this, Bool.false_and]
    · rw [if_neg hg, Nat.add_zero, ih]
      rcases Nat.lt_trichotomy j m with hj | hj | hj
      · have h1 : decide (j < m) = true := by simpa using hj
        have h2 : decide (j < m + 1) = true := by simp; omega
        rw [h1, h2]
      · subst hj
        simp [hg]
      · have h1 : decide (j < m) = false := by simp; omega
        have h2 : decide (j < m + 1) = false := by simp; omega
        rw [h1, h2]

end Candecode

namespace Candecode.Can

/-!
## Embedding of `pkg/can/decoder.go`

`Signal` mirrors the legacy `pkg/dbc` signal descriptor (the fields the
decoder reads); byte buffers are `List ℕ`.
-/

/-- Legacy signal descriptor (`pkg/dbc` `Signal`), fields used by the decoder.
`ByteOrder`: 0 = Motorola (big-endian), 1 = Intel (little-endian). -/
structure Signal where
  Name : String
  StartBit : ℕ
  BitLength : ℕ
  ByteOrder : ℕ
  IsSigned : Bool
  Scale : ℚ
  Offset : ℚ
  Min : ℚ
  Max : ℚ
  Unit : String
deriving DecidableEq

/-- Loop of `extractIntelSignal`: Go iterates `i` from 0 while incrementing
`currentBit` in lockstep (both advance once per completed iteration, so
`currentBit = i`); the `byteIndex >= len(data)` check is a `break`. -/
def extractIntelGo (data : List ℕ) (startBit : ℕ) : ℕ → ℕ → ℕ → ℕ
  | 0, _, result => result
  | fuel + 1, i, result =>
    let bitPosition := startBit + i
    let byteIndex := bitPosition / 8
    let bitIndex := bitPosition % 8
    if data.length ≤ byteIndex then result
    else
      extractIntelGo data startBit fuel (i + 1)
        (if ((data.getD byteIndex 0) >>> bitIndex) &&& 1 = 1 then
          result ||| ((1 <<< i) % 2 ^ 64)
        else result)

/-- `extractIntelSignal` from `pkg/can/decoder.go`. -/
def extractIntelSignal (data : List ℕ) (startBit bitLength : ℕ) : ℕ :=
  extractIntelGo data startBit bitLength 0 0

/-- Body of the `lsb < 0` (byte-boundary-crossing) loop of
`extractMotorolaSignal`; the `bitPos < 0` continue becomes the
`startBit < i` guard. -/
def motoCrossStep (data : List ℕ) (startBit bitLength : ℕ) (result i : ℕ) : ℕ :=
  if startBit < i then result
  else
    let bitPos := startBit - i
    let byteIndex := bitPos / 8
    let bitIndex := 7 - bitPos % 8
    if data.length ≤ byteIndex then result
    else if ((data.getD byteIndex 0) >>> bitIndex) &&& 1 = 1 then
      result ||| ((1 <<< (bitLength - 1 - i)) % 2 ^ 64)
    else result

/-- The byte-boundary-crossing branch of `extractMotorolaSignal`. -/
def extractMotorolaCross (data : List ℕ) (startBit bitLength : ℕ) : ℕ :=
  (List.range bitLength).foldl (motoCrossStep data startBit bitLength) 0

/-- Inner (per-bit) loop body of the within-boundaries branch of
`extractMotorolaSignal`; Go iterates `bitIdx` from 7 down to 0. -/
def motoWithinBitStep (data : List ℕ) (msb lsb byteIdx : ℕ) (result bitIdx : ℕ) : ℕ :=
  let bitPos := byteIdx * 8 + (7 - bitIdx)
  if msb < bitPos ∨ bitPos < lsb then result
  else if ((data.getD byteIdx 0) >>> bitIdx) &&& 1 = 1 then
    result ||| ((1 <<< (bitPos - lsb)) % 2 ^ 64)
  else result

/-- Outer (per-byte) loop body of the within-boundaries branch; the
`byteIdx >= len(data)` continue is the guard. -/
def motoWithinByteStep (data : List ℕ) (msb lsb : ℕ) (result byteIdx : ℕ) : ℕ :=
  if data.length ≤ byteIdx then result
  else ((List.range 8).map (fun k => 7 - k)).foldl
    (motoWithinBitStep data msb lsb byteIdx) result

/-- The "signal within byte boundaries" branch of `extractMotorolaSignal`:
Go iterates `byteIdx` from `startByte` down to `endByte` (this branch only
runs when `lsb = startBit - bitLength + 1 ≥ 0`, so the `ℕ` subtraction
`startBit + 1 - bitLength` agrees with Go's `int` arithmetic there). -/
def extractMotorolaWithin (data : List ℕ) (startBit bitLength : ℕ) : ℕ :=
  let msb := startBit
  let lsb := startBit + 1 - bitLength
  let startByte := msb / 8
  let endByte := lsb / 8
  ((List.range (startByte + 1 - endByte)).map (fun k => startByte - k)).foldl
    (motoWithinByteStep data msb lsb) 0

/-- `extractMotorolaSignal` from `pkg/can/decoder.go`: Go computes
`lsb := msb - bitLength + 1` over `int` and branches on `lsb < 0`,
i.e. on `startBit + 1 < bitLength`. -/
def extractMotorolaSignal (data : List ℕ) (startBit bitLength : ℕ) : ℕ :=
  if startBit + 1 < bitLength then extractMotorolaCross data startBit bitLength
  else extractMotorolaWithin data startBit bitLength

/-- Sign handling of `extractSignalValue` (lines 94-102): for a signed signal
of width `< 64` whose sign bit is set, OR in the complement of the length
mask (`^mask = 2^64 - 1 - mask` over `uint64`). -/
def signExtendGo (value : ℕ) (isSigned : Bool) (bitLength : ℕ) : ℕ :=
  if isSigned ∧ bitLength < 64 then
    let signBit := (1 <<< (bitLength - 1)) % 2 ^ 64
    if value &&& signBit ≠ 0 then
      let mask := (1 <<< bitLength) - 1
      value ||| (2 ^ 64 - 1 - mask)
    else value
  else value

/-- `extractSignalValue` from `pkg/can/decoder.go`: empty buffers are
rejected with an error, then the byte-order dispatch and sign handling run. -/
def extractSignalValue (data : List ℕ) (s : Signal) : Except String ℕ :=
  if data.length = 0 then Except.error "empty data"
  else
    let value :=
      if s.ByteOrder = 1 then extractIntelSignal data s.StartBit s.BitLength
      else extractMotorolaSignal data s.StartBit s.BitLength
    Except.ok (signExtendGo value s.IsSigned s.BitLength)

/-- Reinterpretation of a `uint64` bit pattern as Go's `int64`. -/
def toInt64 (n : ℕ) : ℤ :=
  if n < 2 ^ 63 then (n : ℤ) else (n : ℤ) - 2 ^ 64

/-- `ApplyScaleOffset` from `pkg/can/decoder.go`.  The `float64`
conversions of the Go source are embedded exactly over `ℚ`: `float64(u)` of
a `uint64` is the value of `u` itself, `float64(s)` of an `int64` the value
of `s` (rounding of huge magnitudes cannot affect any claim here, which
only distinguish sign and magnitude class).  Go's
`mask := uint64(1)<<bitLength - 1` wraps at `bitLength = 64`, embedded via
the explicit `% 2 ^ 64`. -/
def ApplyScaleOffset (rawValue : ℕ) (scale offset : ℚ) (isSigned : Bool)
    (bitLength : ℕ) : ℚ :=
  let value : ℚ :=
    if isSigned then
      let signBit := (1 <<< (bitLength - 1)) % 2 ^ 64
      if rawValue &&& signBit ≠ 0 then
        let mask := (2 ^ 64 + (1 <<< bitLength) % 2 ^ 64 - 1) % 2 ^ 64
        ((toInt64 (rawValue ||| (2 ^ 64 - 1 - mask)) : ℤ) : ℚ)
      else (rawValue : ℚ)
    else (rawValue : ℚ)
  value * scale + offset

/-- One entry of `DecodedMessage.Signals` (`SignalValue` in the source). -/
structure SignalValue where
  Name : String
  RawValue : ℕ
  PhysicalValue : ℚ
  Unit : String
deriving DecidableEq

/-- The per-signal loop of `Decoder.DecodeFrame` (lines 58-74): each signal
is extracted (propagating extraction errors), the physical value is computed
inline as `float64(rawValue)*Scale + Offset` — note `rawValue` is the
sign-extended `uint64` and Go's `float64(uint64)` conversion is the
unsigned value — and the result is keyed by signal name. -/
def DecodeFrameSignals (data : List ℕ) :
    List Signal → (String → Option SignalValue) →
    Except String (String → Option SignalValue)
  | [], acc => Except.ok acc
  | s :: rest, acc =>
    match extractSignalValue data s with
    | Except.error e =>
      Except.error ("failed to extract signal " ++ s.Name ++ ": " ++ e)
    | Except.ok rawValue =>
      let physicalValue := (rawValue : ℚ) * s.Scale + s.Offset
      DecodeFrameSignals data rest
        (fun n => if n = s.Name
          then some ⟨s.Name, rawValue, physicalValue, s.Unit⟩ else acc n)

/-! ### Reference (spec-side) interpretations -/

/-- Little-endian reference bit of the spec: bit position `pos` is byte
`pos / 8`, intra-byte bit `pos % 8`; positions outside the buffer read 0. -/
def intelRefBit (data : List ℕ) (pos : ℕ) : Bool :=
  decide (pos / 8 < data.length) && (data.getD (pos / 8) 0).testBit (pos % 8)

/-- Spec reference: the buffer read as one little-endian bit stream starting
at `start`, `len` bits, bit `i` of the result being stream bit `start+i`. -/
def intelReference (data : List ℕ) (start len : ℕ) : ℕ :=
  ∑ i in Finset.range len, if intelRefBit data (start + i) then 2 ^ i else 0

/-- Big-endian stream bit with intra-byte numbering reversed: position `pos`
is byte `pos / 8`, intra-byte bit `7 - pos % 8` (bit 7 is the MSB);
positions outside the buffer read 0. -/
def revStreamBit (data : List ℕ) (pos : ℕ) : Bool :=
  decide (pos / 8 < data.length) && (data.getD (pos / 8) 0).testBit (7 - pos % 8)

/-- The claim's reference value for the big-endian scenario: the MSB-first
interpretation of bytes 0 and 1 of the buffer. -/
def motorolaClaimReference16 (data : List ℕ) : ℕ :=
  256 * data.getD 0 0 + data.getD 1 0

/-- The bits of a byte reversed (bit `k` of the result is bit `7-k` of the
input). -/
def bitrev8 (b : ℕ) : ℕ :=
  ∑ k in Finset.range 8, if b.testBit (7 - k) then 2 ^ k else 0

end Candecode.Can

namespace Candecode.Dbc

/-!
## Embedding of the descriptor-based decoder (`dbc` package, part_003)

The decoder works on `go.einride.tech/can` descriptors.  The descriptor
structure and the frame are embedded below; the einride unmarshalling
helpers are an external library (not part of this repository's sources)
and are modelled from the spec where marked.
-/

/-- einride `descriptor.Signal`, the fields this repository reads.
`float64` parameters are embedded over `ℚ`. -/
structure Signal where
  Name : String
  Start : ℕ
  Length : ℕ
  IsBigEndian : Bool
  IsSigned : Bool
  IsFloat : Bool
  IsMultiplexer : Bool
  IsMultiplexed : Bool
  MultiplexerValue : ℕ
  Scale : ℚ
  Offset : ℚ
  Min : ℚ
  Max : ℚ
  Unit : String
  ValueDescriptions : List (ℤ × String)
deriving DecidableEq

/-- einride `descriptor.Message`, the fields this repository reads. -/
structure Message where
  ID : ℕ
  Name : String
  Length : ℕ
  IsExtended : Bool
  Signals : List Signal
deriving DecidableEq

/-- `can.TimedFrame`: an einride CAN frame plus capture timestamp
(`time.Time` embedded as nanoseconds). -/
structure TimedFrame where
  ID : ℕ
  Length : ℕ
  Data : List ℕ
  IsExtended : Bool
  IsRemote : Bool
  Timestamp : ℕ
deriving DecidableEq

/-- Modelled from the spec: big-endian ("Motorola") raw extraction of
section 4.1 — `start` is the most significant bit position of the field,
stream positions use intra-byte numbering reversed, positions before the
stream or outside the buffer read 0.  (The einride
`descriptor.Signal.UnmarshalUnsigned` implementation is an external
library, absent from `src/`.) -/
def motorolaSpecRead (data : List ℕ) (start len : ℕ) : ℕ :=
  ∑ i in Finset.range len,
    if i ≤ start ∧ Candecode.Can.revStreamBit data (start - i) = true
    then 2 ^ (len - 1 - i) else 0

/-- Modelled from the spec: raw unsigned extraction dispatching on the
bit-order tag (section 4.1); little-endian is the spec's bit-stream read. -/
def UnmarshalUnsigned (s : Signal) (data : List ℕ) : ℕ :=
  if s.IsBigEndian then motorolaSpecRead data s.Start s.Length
  else Candecode.Can.intelReference data s.Start s.Length

/-- Modelled from the spec: signed extraction (section 4.2) — if the sign
bit (bit `length-1`) is set, the two's-complement negative value. -/
def UnmarshalSigned (s : Signal) (data : List ℕ) : ℤ :=
  let v := UnmarshalUnsigned s data
  if v.testBit (s.Length - 1) then (v : ℤ) - 2 ^ s.Length else (v : ℤ)

/-- Modelled from the spec: a 1-bit raw value is boolean, nonzero means
true (section 4.2). -/
def UnmarshalBool (s : Signal) (data : List ℕ) : Bool :=
  decide (UnmarshalUnsigned s data ≠ 0)

/-- Modelled from the spec: float signals reinterpret the extracted 32- or
64-bit pattern as IEEE-754.  The numeric float meaning is opaque to every
claim, so the extracted bit pattern itself is carried. -/
def UnmarshalFloat (s : Signal) (data : List ℕ) : ℕ :=
  UnmarshalUnsigned s data

/-- Modelled from the spec: `physical = raw_as_float × scale + offset`
(einride `descriptor.Signal.ToPhysical`, external library). -/
def ToPhysical (s : Signal) (v : ℚ) : ℚ :=
  v * s.Scale + s.Offset

/-- Modelled from the spec: enumeration lookup (section 4.2 step 4) — the
description attached to the raw integer value, if any (einride
`descriptor.Signal.UnmarshalValueDescription`, external library). -/
def UnmarshalValueDescription (s : Signal) (data : List ℕ) : Option String :=
  let rawInt : ℤ :=
    if s.IsSigned then UnmarshalSigned s data
    else (UnmarshalUnsigned s data : ℤ)
  (s.ValueDescriptions.find? (fun vd => vd.1 = rawInt)).map (fun vd => vd.2)

/-- The raw value of a decoded signal: Go's `any` holding exactly one of
`bool`, `int64`, `uint64`, `float64` (the latter carried as its bit
pattern). -/
inductive RawValue where
  | b (v : Bool)
  | i (v : ℤ)
  | u (v : ℕ)
  | f (pattern : ℕ)
deriving DecidableEq

/-- `DecodedSignal` from the `dbc` package decoder. -/
structure DecodedSignal where
  Raw : RawValue
  Physical : Option ℚ
  Description : String
  Signal : Signal
  Timestamp : ℕ
deriving DecidableEq

/-- `decodeSignal` from part_003: raw dispatch (1-bit, float, signed,
unsigned in that priority), physical value only for non-float signals with
a non-trivial scale/offset/min/max and only when the raw value is an
`int64` or `uint64` (the Go type switch), then enumeration lookup. -/
def decodeSignal (s : Signal) (f : TimedFrame) : DecodedSignal :=
  let raw : RawValue :=
    if s.Length = 1 then RawValue.b (UnmarshalBool s f.Data)
    else if s.IsFloat then RawValue.f (UnmarshalFloat s f.Data)
    else if s.IsSigned then RawValue.i (UnmarshalSigned s f.Data)
    else RawValue.u (UnmarshalUnsigned s f.Data)
  let physical : Option ℚ :=
    if s.IsFloat = false ∧ (s.Scale ≠ 0 ∨ s.Offset ≠ 0 ∨ s.Min ≠ 0 ∨ s.Max ≠ 0) then
      match raw with
      | RawValue.i v => some (ToPhysical s (v : ℚ))
      | RawValue.u v => some (ToPhysical s (v : ℚ))
      | _ => none
    else none
  let description := (UnmarshalValueDescription s f.Data).getD ""
  { Raw := raw, Physical := physical, Description := description,
    Signal := s, Timestamp := f.Timestamp }

/-- Go's `map[string]DecodedSignal`, extensionally. -/
def SignalMap : Type := String → Option DecodedSignal

/-- Map insertion `signalsMap[k] = v`. -/
def mapInsert (m : SignalMap) (k : String) (v : DecodedSignal) : SignalMap :=
  fun n => if n = k then some v else m n

/-- State threaded through the first decoding loop of `Decoder.Decode`:
the map under construction, the multiplexer switch found so far (Go's
`mux *descriptor.Signal`), and `muxVal`. -/
structure Pass1State where
  map : SignalMap
  mux : Option Signal
  muxVal : ℕ

/-- First loop of `Decoder.Decode`: decode non-multiplexed signals; a
multiplexer switch also records itself and its raw value. -/
def decodePass1 (f : TimedFrame) : List Signal → Pass1State → Pass1State
  | [], st => st
  | s :: rest, st =>
    if s.IsMultiplexed then decodePass1 f rest st
    else if s.IsMultiplexer then
      decodePass1 f rest
        { map := mapInsert st.map s.Name (decodeSignal s f),
          mux := some s, muxVal := UnmarshalUnsigned s f.Data }
    else
      decodePass1 f rest { st with map := mapInsert st.map s.Name (decodeSignal s f) }

/-- Second loop of `Decoder.Decode`: decode only the multiplexed signals
whose declared multiplexer value equals `muxVal`. -/
def decodePass2 (f : TimedFrame) (muxVal : ℕ) : List Signal → SignalMap → SignalMap
  | [], m => m
  | s :: rest, m =>
    if s.IsMultiplexed = false then decodePass2 f muxVal rest m
    else if muxVal = s.MultiplexerValue then
      decodePass2 f muxVal rest (mapInsert m s.Name (decodeSignal s f))
    else decodePass2 f muxVal rest m

/-- `Decoder.Decode` from part_003: message lookup by CAN identifier
(einride `descriptor.Database.Message`, modelled from the spec's
"lookup by identifier" as a search of the descriptor list), frame-shape
validation, then the two decoding passes.  The Go error messages carry
formatted identifiers; the formatting is elided. -/
def Decode (db : List Message) (f : TimedFrame) : Except String SignalMap :=
  match db.find? (fun m => m.ID = f.ID) with
  | none => Except.error "unknown message id"
  | some message =>
    if f.Length ≠ message.Length ∨ f.IsExtended ≠ message.IsExtended ∨ f.IsRemote then
      Except.error "frame shape mismatch"
    else
      let st := decodePass1 f message.Signals
        { map := fun _ => none, mux := none, muxVal := 0 }
      let finalMap :=
        match st.mux with
        | none => st.map
        | some _ => decodePass2 f st.muxVal message.Signals st.map
      Except.ok finalMap

end Candecode.Dbc

namespace Candecode.Mcap

/-!
## Embedding of the MCAP writer channel registry

Two revisions of `Writer.ensureChannel` / `Writer.WriteDecodedSignal`
exist in the sources: `pkg/mcap/writer.go` (embedded in `McapOld`) and the
revision in part_001 (embedded in `McapNew`).  The underlying
`mcap.Writer` record sink is embedded as the list of channel records
written so far; its I/O failure modes are outside this embedding.
Wall-clock time (`time.Now()`) enters as an explicit `now` parameter.
-/

/-- An emitted MCAP channel record. -/
structure ChannelRec where
  ID : ℕ
  SchemaID : ℕ
  Topic : String
  Metadata : List (String × String)
deriving DecidableEq

/-- An emitted MCAP message record (`Data`, the marshalled protobuf
payload, is external serialization and not carried). -/
structure MessageRec where
  ChannelID : ℕ
  Sequence : ℕ
  LogTime : ℕ
  PublishTime : ℕ
deriving DecidableEq

/-- `Writer` state: schema ID, next channel ID, the key-to-channel map
(an association list) and the channel records written so far. -/
structure WriterState where
  schemaID : ℕ
  nextChanID : ℕ
  channels : List (String × ℕ)
  written : List ChannelRec
deriving DecidableEq

/-- Writer state after `NewWriter` (both revisions): schema 1 registered,
`nextChanID` 1, no channels. -/
def initialWriter : WriterState :=
  { schemaID := 1, nextChanID := 1, channels := [], written := [] }

/-- An uppercase hexadecimal digit. -/
def hexDigit (n : ℕ) : Char :=
  if n < 10 then Char.ofNat (48 + n) else Char.ofNat (55 + n)

/-- Uppercase hexadecimal digits, most significant first; structural on a
fuel bound (`n / 16 < n` for `n ≥ 16`, so `n + 1` steps always suffice). -/
def hexRepAux : ℕ → ℕ → List Char
  | 0, _ => []
  | fuel + 1, n =>
    if n < 16 then [hexDigit n]
    else hexRepAux fuel (n / 16) ++ [hexDigit (n % 16)]

/-- Uppercase hexadecimal digits of a number, most significant first. -/
def hexRep (n : ℕ) : List Char :=
  hexRepAux (n + 1) n

/-- Go `fmt.Sprintf` of a CAN identifier with the `0x%X` verb. -/
def hexIDString (canID : ℕ) : String :=
  "0x" ++ String.mk (hexRep canID)

/-- `channelKey` from both writer revisions. -/
def channelKey (hexID signalName : String) : String :=
  hexID ++ ":" ++ signalName

/-- Channel metadata of both writer revisions (`unit` only when
non-empty). -/
def channelMetadata (hexID messageName signalName unit : String)
    (isExtended : Bool) : List (String × String) :=
  let metadata := [("can_id", hexID), ("message", messageName),
    ("signal", signalName), ("is_extended", if isExtended then "true" else "false")]
  if unit ≠ "" then metadata ++ [("unit", unit)] else metadata

/-- The decoded-signal fields `WriteDecodedSignal` reads from the protobuf
message (`Timestamp` is `none` when the protobuf timestamp is unset). -/
structure DecodedSignalMsg where
  MessageName : String
  Name : String
  Timestamp : Option ℕ
  CanId : ℕ
  IsExtended : Bool
  Unit : String
deriving DecidableEq

end Candecode.Mcap

namespace Candecode.McapOld

open Candecode.Mcap

/-- `Writer.ensureChannel` from `pkg/mcap/writer.go`: on a fresh key Go
runs `w.nextChanID++` and then `chID := w.nextChanID` — the counter is
incremented before the assignment. -/
def ensureChannel (w : WriterState) (canID : ℕ) (isExtended : Bool)
    (messageName signalName unit : String) : ℕ × WriterState :=
  let hexID := hexIDString canID
  let key := channelKey hexID signalName
  match w.channels.lookup key with
  | some id => (id, w)
  | none =>
    let nextChanID := w.nextChanID + 1
    let chID := nextChanID
    let topic := "/can/" ++ messageName ++ "/" ++ signalName
    let chRec : ChannelRec :=
      { ID := chID, SchemaID := w.schemaID, Topic := topic,
        Metadata := channelMetadata hexID messageName signalName unit isExtended }
    (chID,
      { w with
        nextChanID := nextChanID,
        channels := w.channels ++ [(key, chID)],
        written := w.written ++ [chRec] })

/-- `Writer.WriteDecodedSignal` from `pkg/mcap/writer.go`: `ts` starts as
`time.Now()` (the `now` parameter) and is replaced by the signal timestamp
when set; log-time and publish-time are both `ts`. -/
def WriteDecodedSignal (w : WriterState) (now : ℕ) (ds : DecodedSignalMsg) :
    WriterState × MessageRec :=
  let ts := match ds.Timestamp with | some t => t | none => now
  let r := ensureChannel w ds.CanId ds.IsExtended ds.MessageName ds.Name ds.Unit
  (r.2, { ChannelID := r.1, Sequence := 0, LogTime := ts, PublishTime := ts })

end Candecode.McapOld

namespace Candecode.McapNew

open Candecode.Mcap

/-- `Writer.ensureChannel` from part_001: `chID := w.nextChanID` and only
then `w.nextChanID++` ("post-increment style so first channel=1"). -/
def ensureChannel (w : WriterState) (canID : ℕ) (isExtended : Bool)
    (messageName signalName unit : String) : ℕ × WriterState :=
  let hexID := hexIDString canID
  let key := channelKey hexID signalName
  match w.channels.lookup key with
  | some id => (id, w)
  | none =>
    let chID := w.nextChanID
    let topic := "/can/" ++ messageName ++ "/" ++ signalName
    let chRec : ChannelRec :=
      { ID := chID, SchemaID := w.schemaID, Topic := topic,
        Metadata := channelMetadata hexID messageName signalName unit isExtended }
    (chID,
      { w with
        nextChanID := w.nextChanID + 1,
        channels := w.channels ++ [(key, chID)],
        written := w.written ++ [chRec] })

/-- `Writer.WriteDecodedSignal` from part_001: `ts` starts as the zero
`time.Time` and is replaced by the signal timestamp when set; log-time is
`ts` but publish-time is `time.Now()` (the `now` parameter). -/
def WriteDecodedSignal (w : WriterState) (now : ℕ) (ds : DecodedSignalMsg) :
    WriterState × MessageRec :=
  let ts := match ds.Timestamp with | some t => t | none => 0
  let r := ensureChannel w ds.CanId ds.IsExtended ds.MessageName ds.Name ds.Unit
  (r.2, { ChannelID := r.1, Sequence := 0, LogTime := ts, PublishTime := now })

end Candecode.McapNew

namespace Candecode.Examples

/-! Concrete inputs used to instantiate the claims. -/

/-- C5 scenario: the multiplexer switch signal. -/
def c5Mux : Dbc.Signal :=
  { Name := "Mode", Start := 0, Length := 8, IsBigEndian := false,
    IsSigned := false, IsFloat := false, IsMultiplexer := true,
    IsMultiplexed := false, MultiplexerValue := 0, Scale := 0, Offset := 0,
    Min := 0, Max := 0, Unit := "", ValueDescriptions := [] }

/-- C5 scenario: multiplexed signal active when the switch reads 1. -/
def c5SigA : Dbc.Signal :=
  { Name := "A", Start := 8, Length := 8, IsBigEndian := false,
    IsSigned := false, IsFloat := false, IsMultiplexer := false,
    IsMultiplexed := true, MultiplexerValue := 1, Scale := 0, Offset := 0,
    Min := 0, Max := 0, Unit := "", ValueDescriptions := [] }

/-- C5 scenario: multiplexed signal active when the switch reads 0. -/
def c5SigB : Dbc.Signal :=
  { Name := "B", Start := 16, Length := 8, IsBigEndian := false,
    IsSigned := false, IsFloat := false, IsMultiplexer := false,
    IsMultiplexed := true, MultiplexerValue := 0, Scale := 0, Offset := 0,
    Min := 0, Max := 0, Unit := "", ValueDescriptions := [] }

/-- C5 scenario: an ordinary non-multiplexed signal. -/
def c5Plain : Dbc.Signal :=
  { Name := "Plain", Start := 24, Length := 8, IsBigEndian := false,
    IsSigned := false, IsFloat := false, IsMultiplexer := false,
    IsMultiplexed := false, MultiplexerValue := 0, Scale := 0, Offset := 0,
    Min := 0, Max := 0, Unit := "", ValueDescriptions := [] }

/-- C5 scenario: the message descriptor. -/
def c5Msg : Dbc.Message :=
  { ID := 100, Name := "M", Length := 8, IsExtended := false,
    Signals := [c5Mux, c5SigA, c5SigB, c5Plain] }

/-- C5 scenario: a frame whose first byte sets the switch to 1. -/
def c5Frame : Dbc.TimedFrame :=
  { ID := 100, Length := 8, Data := [1, 5, 7, 9, 0, 0, 0, 0],
    IsExtended := false, IsRemote := false, Timestamp := 0 }

/-- C9 scenario: a decoded-signal record with its timestamp set to 5 ns. -/
def c9Ds : Mcap.DecodedSignalMsg :=
  { MessageName := "M", Name := "Sig", Timestamp := some 5, CanId := 256,
    IsExtended := false, Unit := "" }

end Candecode.Examples

namespace Candecode

open Candecode.Can

/-! ## Characterization of the extractors, bit by bit -/

/-- Bit-level invariant of the `extractIntelSignal` loop: bit `j` of the
result is the little-endian stream bit at `startBit + j` for executed
in-range iterations, and the monotonicity of `byteIndex` makes the `break`
equivalent to skipping all remaining (out-of-buffer, hence zero)
positions. -/
theorem extractIntelGo_testBit (data : List ℕ) (startBit : ℕ) :
    ∀ (fuel i result j : ℕ),
      (extractIntelGo data startBit fuel i result).testBit j =
        (result.testBit j ||
          (decide (i ≤ j) && decide (j < i + fuel) && decide (j < 64) &&
            intelRefBit data (startBit + j))) := by
  intro fuel
  induction fuel with
  | zero =>
    intro i result j
    simp only [extractIntelGo]
    by_cases hij : i ≤ j
    · have h0 : decide (j < i + 0) = false := by simp; omega
      simp [h0]
    · have h0 : decide (i ≤ j) = false := by simpa using hij
      simp [h0]
  | succ fuel ih =>
    intro i result j
    simp only [extractIntelGo]
    by_cases hb : data.length ≤ (startBit + i) / 8
    · rw [if_pos hb]
      by_cases hij : i ≤ j
      · have hmono : data.length ≤ (startBit + j) / 8 :=
          le_trans hb (Nat.div_le_div_right (by omega))
        have h0 : intelRefBit data (startBit + j) = false := by
          unfold intelRefBit
          have h1 : decide ((startBit + j) / 8 < data.length) = false := by
            simp; omega
          rw [h1, Bool.false_and]
        simp [h0]
      · have h0 : decide (i ≤ j) = false := by simpa using hij
        simp [h0]
    · rw [if_neg hb]
      rw [ih]
      apply bool_eq_of_iff
      by_cases hbit : ((data.getD ((startBit + i) / 8) 0) >>> ((startBit + i) % 8)) &&& 1 = 1
      · rw [if_pos hbit]
        have href : intelRefBit data (startBit + i) = true := by
          unfold intelRefBit
          have h1 : decide ((startBit + i) / 8 < data.length) = true := by
            simp; omega
          rw [h1, Bool.true_and]
          exact (shift_and_one_eq_one_iff _ _).mp hbit
        simp only [Nat.testBit_or, testBit_one_shiftLeft_mod, Bool.or_eq_true,
          Bool.and_eq_true, decide_eq_true_eq, and_assoc]
        constructor
        · rintro (⟨hr | ⟨h64, hji⟩⟩ | ⟨h1, h2, h3, h4⟩)
          · exact Or.inl hr
          · subst hji
            exact Or.inr ⟨by omega, by omega, h64, href⟩
          · exact Or.inr ⟨by omega, by omega, h3, h4⟩
        · rintro (hr | ⟨h1, h2, h3, h4⟩)
          · exact Or.inl (Or.inl hr)
          · by_cases hji : i = j
            · exact Or.inl (Or.inr ⟨h3, hji⟩)
            · exact Or.inr ⟨by omega, by omega, h3, h4⟩
      · rw [if_neg hbit]
        have href : intelRefBit data (startBit + i) = false := by
          unfold intelRefBit
          by_cases h1 : (startBit + i) / 8 < data.length
          · have h2 : (data.getD ((startBit + i) / 8) 0).testBit ((startBit + i) % 8) = false := by
              by_contra hc
              exact hbit ((shift_and_one_eq_one_iff _ _).mpr (by simpa using hc))
            rw [h2, Bool.and_false]
          · have h2 : decide ((startBit + i) / 8 < data.length) = false := by simpa using h1
            rw [h2, Bool.false_and]
        simp only [Bool.or_eq_true, Bool.and_eq_true, decide_eq_true_eq, and_assoc]
        constructor
        · rintro (hr | ⟨h1, h2, h3, h4⟩)
          · exact Or.inl hr
          · exact Or.inr ⟨by omega, by omega, h3, h4⟩
        · rintro (hr | ⟨h1, h2, h3, h4⟩)
          · exact Or.inl hr
          · have hji : i ≠ j := by
              intro hc
              subst hc
              rw [href] at h4
              exact Bool.false_ne_true h4
            exact Or.inr ⟨by omega, by omega, h3, h4⟩

/-- Bit-level characterization of `extractIntelSignal`. -/
theorem extractIntelSignal_testBit (data : List ℕ) (startBit bitLength j : ℕ) :
    (extractIntelSignal data startBit bitLength).testBit j =
      (decide (j < bitLength) && decide (j < 64) && intelRefBit data (startBit + j)) := by
  rw [extractIntelSignal, extractIntelGo_testBit]
  simp only [Nat.zero_testBit, Bool.false_or, Nat.zero_add]
  have h0 : decide (0 ≤ j) = true := by simp
  rw [h0, Bool.true_and]

/-- Bit contribution of one iteration of the boundary-crossing Motorola
loop. -/
theorem motoCrossStep_testBit (data : List ℕ) (s l : ℕ) (r i j : ℕ) :
    (motoCrossStep data s l r i).testBit j =
      (r.testBit j || (decide (i ≤ s) && revStreamBit data (s - i) &&
        decide (j < 64) && decide (l - 1 - i = j))) := by
  simp only [motoCrossStep, revStreamBit]
  by_cases h1 : s < i
  · rw [if_pos h1]
    have hd : decide (i ≤ s) = false := by simp; omega
    rw [hd]
    simp
  · rw [if_neg h1]
    have hd : decide (i ≤ s) = true := by simp; omega
    rw [hd]
    by_cases h2 : data.length ≤ (s - i) / 8
    · rw [if_pos h2]
      have hd2 : decide ((s - i) / 8 < data.length) = false := by simp; omega
      rw [hd2]
      simp
    · rw [if_neg h2]
      have hd2 : decide ((s - i) / 8 < data.length) = true := by simp; omega
      rw [hd2]
      by_cases h3 : ((data.getD ((s - i) / 8) 0) >>> (7 - (s - i) % 8)) &&& 1 = 1
      · rw [if_pos h3, (shift_and_one_eq_one_iff _ _).mp h3]
        rw [Nat.testBit_or, testBit_one_shiftLeft_mod]
        simp
      · rw [if_neg h3]
        have ht : (data.getD ((s - i) / 8) 0).testBit (7 - (s - i) % 8) = false :=
          Bool.eq_false_iff.mpr (fun hc => h3 ((shift_and_one_eq_one_iff _ _).mpr hc))
        rw [ht]
        simp

/-- Bit-level characterization of the boundary-crossing Motorola branch:
result bit `bitLength - 1 - i` is the reversed-numbering stream bit at
position `startBit - i`. -/
theorem extractMotorolaCross_testBit (data : List ℕ) (s l j : ℕ) :
    (extractMotorolaCross data s l).testBit j =
      (decide (j < l) && decide (j < 64) && decide (l - 1 - j ≤ s) &&
        revStreamBit data (s - (l - 1 - j))) := by
  rw [extractMotorolaCross,
    foldl_testBit_or _ _ (motoCrossStep_testBit data s l)]
  rw [Nat.zero_testBit, Bool.false_or]
  apply bool_eq_of_iff
  simp only [List.any_eq_true, List.mem_range, Bool.and_eq_true,
    decide_eq_true_eq, and_assoc]
  constructor
  · rintro ⟨i, hi, his, hrev, h64, hij⟩
    have hjl : j < l := by omega
    have hidx : l - 1 - j = i := by omega
    exact ⟨hjl, h64, by omega, by rw [hidx]; exact hrev⟩
  · rintro ⟨hjl, h64, hls, hrev⟩
    exact ⟨l - 1 - j, by omega, by omega, hrev, h64, by omega⟩

/-- Bit contribution of one iteration of the inner (per-bit) loop of the
within-boundaries Motorola branch. -/
theorem motoWithinBitStep_testBit (data : List ℕ) (msb lsb byteIdx : ℕ)
    (r bitIdx j : ℕ) :
    (motoWithinBitStep data msb lsb byteIdx r bitIdx).testBit j =
      (r.testBit j ||
        (decide (lsb ≤ byteIdx * 8 + (7 - bitIdx)) &&
         decide (byteIdx * 8 + (7 - bitIdx) ≤ msb) &&
         (data.getD byteIdx 0).testBit bitIdx &&
         decide (j < 64) &&
         decide (byteIdx * 8 + (7 - bitIdx) - lsb = j))) := by
  simp only [motoWithinBitStep]
  by_cases h1 : msb < byteIdx * 8 + (7 - bitIdx) ∨ byteIdx * 8 + (7 - bitIdx) < lsb
  · rw [if_pos h1]
    rcases h1 with h1 | h1
    · have hd : decide (byteIdx * 8 + (7 - bitIdx) ≤ msb) = false := by simp; omega
      rw [hd]
      simp
    · have hd : decide (lsb ≤ byteIdx * 8 + (7 - bitIdx)) = false := by simp; omega
      rw [hd]
      simp
  · rw [if_neg h1]
    push_neg at h1
    have hd1 : decide (lsb ≤ byteIdx * 8 + (7 - bitIdx)) = true := by simp; omega
    have hd2 : decide (byteIdx * 8 + (7 - bitIdx) ≤ msb) = true := by simp; omega
    rw [hd1, hd2]
    by_cases h3 : ((data.getD byteIdx 0) >>> bitIdx) &&& 1 = 1
    · rw [if_pos h3, (shift_and_one_eq_one_iff _ _).mp h3]
      rw [Nat.testBit_or, testBit_one_shiftLeft_mod]
      simp
    · rw [if_neg h3]
      have ht : (data.getD byteIdx 0).testBit bitIdx = false :=
        Bool.eq_false_iff.mpr (fun hc => h3 ((shift_and_one_eq_one_iff _ _).mpr hc))
      rw [ht]
      simp

/-- Bit contribution of one iteration of the outer (per-byte) loop of the
within-boundaries Motorola branch. -/
theorem motoWithinByteStep_testBit (data : List ℕ) (msb lsb : ℕ)
    (r byteIdx j : ℕ) :
    (motoWithinByteStep data msb lsb r byteIdx).testBit j =
      (r.testBit j ||
        (decide (byteIdx < data.length) &&
          ((List.range 8).map (fun k => 7 - k)).any (fun bitIdx =>
            decide (lsb ≤ byteIdx * 8 + (7 - bitIdx)) &&
            decide (byteIdx * 8 + (7 - bitIdx) ≤ msb) &&
            (data.getD byteIdx 0).testBit bitIdx &&
            decide (j < 64) &&
            decide (byteIdx * 8 + (7 - bitIdx) - lsb = j)))) := by
  unfold motoWithinByteStep
  by_cases h1 : data.length ≤ byteIdx
  · rw [if_pos h1]
    have hd : decide (byteIdx < data.length) = false := by simp; omega
    rw [hd]
    simp
  · rw [if_neg h1]
    rw [foldl_testBit_or _ _ (fun r x j => motoWithinBitStep_testBit data msb lsb byteIdx r x j)]
    have hd : decide (byteIdx < data.length) = true := by simp; omega
    rw [hd, Bool.true_and]

/-- Bit-level characterization of the within-boundaries Motorola branch
(on the inputs where that branch runs, `bitLength ≤ startBit + 1`):
result bit `j` is the reversed-numbering stream bit at `lsb + j`. -/
theorem extractMotorolaWithin_testBit (data : List ℕ) (s l j : ℕ)
    (h : l ≤ s + 1) :
    (extractMotorolaWithin data s l).testBit j =
      (decide (j < l) && decide (j < 64) && revStreamBit data ((s + 1 - l) + j)) := by
  simp only [extractMotorolaWithin]
  rw [foldl_testBit_or _ _ (motoWithinByteStep_testBit data s (s + 1 - l))]
  rw [Nat.zero_testBit, Bool.false_or]
  apply bool_eq_of_iff
  simp only [List.any_map, List.any_eq_true, List.mem_range, Function.comp,
    Bool.and_eq_true, decide_eq_true_eq, and_assoc, revStreamBit]
  constructor
  · rintro ⟨kByte, hkByte, hlen, kBit, hkBit, hge, hle, htb, h64, hj⟩
    have hjl : j < l := by omega
    have hpos : (s + 1 - l) + j = (s / 8 - kByte) * 8 + (7 - (7 - kBit)) := by omega
    have hdiv : ((s + 1 - l) + j) / 8 = s / 8 - kByte := by omega
    have hmod : 7 - ((s + 1 - l) + j) % 8 = 7 - kBit := by omega
    refine ⟨hjl, h64, ?_, ?_⟩
    · rw [hdiv]; exact hlen
    · rw [hdiv, hmod]; exact htb
  · rintro ⟨hjl, h64, hlen, htb⟩
    have hple : (s + 1 - l) + j ≤ s := by omega
    have hpge : s + 1 - l ≤ (s + 1 - l) + j := by omega
    refine ⟨s / 8 - ((s + 1 - l) + j) / 8, by omega, ?_, ((s + 1 - l) + j) % 8, by omega, ?_, ?_, ?_, h64, ?_⟩
    · have hb : s / 8 - (s / 8 - ((s + 1 - l) + j) / 8) = ((s + 1 - l) + j) / 8 := by omega
      rw [hb]; exact hlen
    · omega
    · omega
    · have hb : s / 8 - (s / 8 - ((s + 1 - l) + j) / 8) = ((s + 1 - l) + j) / 8 := by omega
      rw [hb]
      exact htb
    · omega

/-- Unified bit-level characterization of `extractMotorolaSignal`: in both
branches, result bit `bitLength - 1 - i` is the reversed-numbering stream
bit at position `startBit - i` (zero when the position is negative or past
the buffer). -/
theorem extractMotorolaSignal_testBit (data : List ℕ) (s l j : ℕ) :
    (extractMotorolaSignal data s l).testBit j =
      (decide (j < l) && decide (j < 64) && decide (l - 1 - j ≤ s) &&
        revStreamBit data (s - (l - 1 - j))) := by
  unfold extractMotorolaSignal
  by_cases hb : s + 1 < l
  · rw [if_pos hb, extractMotorolaCross_testBit]
  · rw [if_neg hb, extractMotorolaWithin_testBit data s l j (by omega)]
    apply bool_eq_of_iff
    simp only [Bool.and_eq_true, decide_eq_true_eq, and_assoc]
    constructor
    · rintro ⟨hjl, h64, hrev⟩
      have h2 : s - (l - 1 - j) = (s + 1 - l) + j := by omega
      exact ⟨hjl, h64, by omega, by rw [h2]; exact hrev⟩
    · rintro ⟨hjl, h64, h1, hrev⟩
      have h2 : (s + 1 - l) + j = s - (l - 1 - j) := by omega
      exact ⟨hjl, h64, by rw [h2]; exact hrev⟩

/-- Zero-padding a buffer does not change any default-0 indexed read. -/
theorem getD_append_pad (data : List ℕ) (k idx : ℕ) :
    (data ++ List.replicate k 0).getD idx 0 = data.getD idx 0 := by
  by_cases h : idx < data.length
  · exact List.getD_append data _ 0 idx h
  · rw [List.getD_eq_default data 0 (by omega)]
    rw [List.getD_append_right data _ 0 idx (by omega)]
    simp only [List.getD, List.get?_eq_getElem?, List.getElem?_replicate]
    split <;> rfl

/-- Zero-padding a buffer does not change any little-endian stream bit. -/
theorem intelRefBit_pad (data : List ℕ) (k pos : ℕ) :
    intelRefBit (data ++ List.replicate k 0) pos = intelRefBit data pos := by
  unfold intelRefBit
  rw [getD_append_pad]
  by_cases h : pos / 8 < data.length
  · have d1 : decide (pos / 8 < (data ++ List.replicate k 0).length) = true := by
      simp; omega
    have d2 : decide (pos / 8 < data.length) = true := by simp; omega
    rw [d1, d2]
  · have hz : data.getD (pos / 8) 0 = 0 := List.getD_eq_default data 0 (by omega)
    rw [hz]
    simp [Nat.zero_testBit]

/-- Zero-padding a buffer does not change any reversed-numbering stream
bit. -/
theorem revStreamBit_pad (data : List ℕ) (k pos : ℕ) :
    revStreamBit (data ++ List.replicate k 0) pos = revStreamBit data pos := by
  unfold revStreamBit
  rw [getD_append_pad]
  by_cases h : pos / 8 < data.length
  · have d1 : decide (pos / 8 < (data ++ List.replicate k 0).length) = true := by
      simp; omega
    have d2 : decide (pos / 8 < data.length) = true := by simp; omega
    rw [d1, d2]
  · have hz : data.getD (pos / 8) 0 = 0 := List.getD_eq_default data 0 (by omega)
    rw [hz]
    simp [Nat.zero_testBit]

/-- Zero-padding invariance of the Intel extractor. -/
theorem extractIntelSignal_pad (data : List ℕ) (k s l : ℕ) :
    extractIntelSignal (data ++ List.replicate k 0) s l =
      extractIntelSignal data s l := by
  apply Nat.eq_of_testBit_eq
  intro j
  rw [extractIntelSignal_testBit, extractIntelSignal_testBit, intelRefBit_pad]

/-- Zero-padding invariance of the Motorola extractor. -/
theorem extractMotorolaSignal_pad (data : List ℕ) (k s l : ℕ) :
    extractMotorolaSignal (data ++ List.replicate k 0) s l =
      extractMotorolaSignal data s l := by
  apply Nat.eq_of_testBit_eq
  intro j
  rw [extractMotorolaSignal_testBit, extractMotorolaSignal_testBit, revStreamBit_pad]

end Candecode

namespace Candecode

open Candecode.Can

/-! ## Claims C1 - C4: the bit extractor -/

/-- C1 counterexample: for the Motorola signal with start=7, length=16 on
the 8-byte buffer `01 02 00 00 00 00 00 00`, the extracted value is 32768
(the bits of byte 0 reversed, shifted into the high byte), not the
MSB-first interpretation `0x0102 = 258` of bytes 0-1 that the claim
states — byte 1 never contributes. -/
theorem c1_motorola_bytes01_counterexample :
    Can.extractMotorolaSignal [1, 2, 0, 0, 0, 0, 0, 0] 7 16 = 32768 ∧
    Can.motorolaClaimReference16 [1, 2, 0, 0, 0, 0, 0, 0] = 258 ∧
    Can.extractMotorolaSignal [1, 2, 0, 0, 0, 0, 0, 0] 7 16 ≠
      Can.motorolaClaimReference16 [1, 2, 0, 0, 0, 0, 0, 0] := by
  refine ⟨by decide, by decide, by decide⟩

/-- C1 (amended): big-endian extraction treats `start` as the position of
the field's most significant bit in the reversed-intra-byte-numbered
stream: result bit `length-1-i` is the stream bit at position `start-i`
(positions below zero or outside the buffer read as zero).  In particular,
for start=7 and length=16 on an 8-byte buffer the extracted value is the
bit-reversal of byte 0 shifted left by 8; byte 1 does not contribute. -/
theorem c1_motorola_msb_start_characterization (data : List ℕ)
    (startBit bitLength : ℕ) (h1 : 1 ≤ bitLength) (h64 : bitLength ≤ 64) :
    (∀ i, i < bitLength →
      (Can.extractMotorolaSignal data startBit bitLength).testBit (bitLength - 1 - i) =
        (decide (i ≤ startBit) && Can.revStreamBit data (startBit - i))) ∧
    (∀ b0 b1 b2 b3 b4 b5 b6 b7 : ℕ,
      Can.extractMotorolaSignal [b0, b1, b2, b3, b4, b5, b6, b7] 7 16 =
        256 * Can.bitrev8 b0) := by
  constructor
  · intro i hi
    rw [extractMotorolaSignal_testBit]
    have e1 : decide (bitLength - 1 - i < bitLength) = true := by simp; omega
    have e2 : decide (bitLength - 1 - i < 64) = true := by simp; omega
    have e3 : bitLength - 1 - (bitLength - 1 - i) = i := by omega
    rw [e1, e2, e3, Bool.true_and, Bool.true_and]
  · intro b0 b1 b2 b3 b4 b5 b6 b7
    apply Nat.eq_of_testBit_eq
    intro j
    rw [extractMotorolaSignal_testBit]
    have h256 : 256 * Can.bitrev8 b0 = Can.bitrev8 b0 <<< 8 := by
      rw [Nat.shiftLeft_eq]
      ring
    rw [h256, Nat.testBit_shiftLeft]
    simp only [Can.bitrev8]
    rw [testBit_boolSum]
    by_cases hj1 : j < 8
    · have d1 : decide (8 ≤ j) = false := by simp; omega
      have d2 : decide (16 - 1 - j ≤ 7) = false := by simp; omega
      rw [d1, d2]
      simp
    · by_cases hj2 : j < 16
      · have d1 : decide (j < 16) = true := by simp; omega
        have d2 : decide (j < 64) = true := by simp; omega
        have d3 : decide (16 - 1 - j ≤ 7) = true := by simp; omega
        have d4 : decide (8 ≤ j) = true := by simp; omega
        have d5 : decide (j - 8 < 8) = true := by simp; omega
        rw [d1, d2, d3, d4]
        simp only [Can.revStreamBit]
        have hp : 7 - (16 - 1 - j) = j - 8 := by omega
        have hdiv : (j - 8) / 8 = 0 := by omega
        have hmod : (j - 8) % 8 = j - 8 := by omega
        rw [hp, hdiv, hmod, d5]
        have hlen : decide ((0 : ℕ) < ([b0, b1, b2, b3, b4, b5, b6, b7] : List ℕ).length) = true := by
          simp
        rw [hlen]
        have hget : ([b0, b1, b2, b3, b4, b5, b6, b7] : List ℕ).getD 0 0 = b0 := rfl
        rw [hget]
        have hbit : 7 - (j - 8) = 7 - (j - 8) := rfl
        simp
      · have d1 : decide (j < 16) = false := by simp; omega
        have d5 : decide (j - 8 < 8) = false := by simp; omega
        rw [d1, d5]
        simp

/-- C2: little-endian extraction equals the spec's little-endian
bit-stream read, and result bit `i` is the stream bit at `start + i`. -/
theorem c2_intel_matches_reference (data : List ℕ) (startBit bitLength : ℕ)
    (h1 : 1 ≤ bitLength) (h64 : bitLength ≤ 64) :
    Can.extractIntelSignal data startBit bitLength =
      Can.intelReference data startBit bitLength ∧
    ∀ i, i < bitLength →
      (Can.extractIntelSignal data startBit bitLength).testBit i =
        Can.intelRefBit data (startBit + i) := by
  constructor
  · apply Nat.eq_of_testBit_eq
    intro j
    rw [extractIntelSignal_testBit]
    simp only [Can.intelReference]
    rw [testBit_boolSum]
    by_cases hj : j < bitLength
    · have d1 : decide (j < 64) = true := by simp; omega
      have d2 : decide (j < bitLength) = true := by simp; omega
      rw [d1, d2]
      simp
    · have d2 : decide (j < bitLength) = false := by simp; omega
      rw [d2]
      simp
  · intro i hi
    rw [extractIntelSignal_testBit]
    have d1 : decide (i < bitLength) = true := by simp; omega
    have d2 : decide (i < 64) = true := by simp; omega
    rw [d1, d2]
    simp

/-- C3: on every input where both Motorola branches are defined
(`lsb = start - length + 1 ≥ 0`, which includes every field lying within
one byte), the within-boundaries branch returns the same value as the
boundary-crossing branch, and the dispatched extractor therefore always
agrees with the boundary-crossing algorithm. -/
theorem c3_motorola_branches_agree (data : List ℕ) (startBit bitLength : ℕ)
    (h : bitLength ≤ startBit + 1) :
    Can.extractMotorolaWithin data startBit bitLength =
      Can.extractMotorolaCross data startBit bitLength ∧
    Can.extractMotorolaSignal data startBit bitLength =
      Can.extractMotorolaCross data startBit bitLength := by
  have hmain : Can.extractMotorolaWithin data startBit bitLength =
      Can.extractMotorolaCross data startBit bitLength := by
    apply Nat.eq_of_testBit_eq
    intro j
    rw [extractMotorolaWithin_testBit data startBit bitLength j h,
      extractMotorolaCross_testBit]
    apply bool_eq_of_iff
    simp only [Bool.and_eq_true, decide_eq_true_eq, and_assoc]
    constructor
    · rintro ⟨hjl, h64, hrev⟩
      have h2 : startBit - (bitLength - 1 - j) = (startBit + 1 - bitLength) + j := by
        omega
      exact ⟨hjl, h64, by omega, by rw [h2]; exact hrev⟩
    · rintro ⟨hjl, h64, hle, hrev⟩
      have h2 : (startBit + 1 - bitLength) + j = startBit - (bitLength - 1 - j) := by
        omega
      exact ⟨hjl, h64, by rw [h2]; exact hrev⟩
  refine ⟨hmain, ?_⟩
  unfold Can.extractMotorolaSignal
  rw [if_neg (by omega)]
  exact hmain

/-- C4 counterexample: raw-value extraction does fail on the empty buffer
— `extractSignalValue` returns the "empty data" error rather than a
value. -/
theorem c4_empty_buffer_error :
    Can.extractSignalValue []
      { Name := "S", StartBit := 0, BitLength := 8, ByteOrder := 1,
        IsSigned := false, Scale := 1, Offset := 0, Min := 0, Max := 0,
        Unit := "" } = Except.error "empty data" := rfl

/-- C4 (amended): for every nonempty buffer and every bit layout in either
bit-order convention, raw-value extraction returns a value (never an
error), and bit positions outside the buffer contribute zero — extraction
is invariant under zero-padding the buffer; only the empty buffer is
rejected. -/
theorem c4_nonempty_extraction_total (data : List ℕ) (s : Can.Signal)
    (h : data ≠ []) :
    (∃ v, Can.extractSignalValue data s = Except.ok v) ∧
    (∀ k, Can.extractSignalValue (data ++ List.replicate k 0) s =
      Can.extractSignalValue data s) := by
  have hlen : ¬data.length = 0 := by
    intro hc
    exact h (List.length_eq_zero.mp hc)
  constructor
  · unfold Can.extractSignalValue
    rw [if_neg hlen]
    exact ⟨_, rfl⟩
  · intro k
    unfold Can.extractSignalValue
    have hlen2 : ¬(data ++ List.replicate k 0).length = 0 := by
      simp only [List.length_append, List.length_replicate]
      omega
    rw [if_neg hlen, if_neg hlen2, extractIntelSignal_pad, extractMotorolaSignal_pad]

/-- Witness for C1 at the concrete buffer `01 02 00 00 00 00 00 00` with
start=7, length=16. -/
theorem c1_motorola_msb_start_characterization_witness :
    ((1 ≤ 16 ∧ 16 ≤ 64) ∧
      ((∀ i, i < 16 →
        (Can.extractMotorolaSignal [1, 2, 0, 0, 0, 0, 0, 0] 7 16).testBit (16 - 1 - i) =
          (decide (i ≤ 7) && Can.revStreamBit [1, 2, 0, 0, 0, 0, 0, 0] (7 - i))) ∧
      (∀ b0 b1 b2 b3 b4 b5 b6 b7 : ℕ,
        Can.extractMotorolaSignal [b0, b1, b2, b3, b4, b5, b6, b7] 7 16 =
          256 * Can.bitrev8 b0))) :=
  ⟨⟨by decide, by decide⟩,
    c1_motorola_msb_start_characterization [1, 2, 0, 0, 0, 0, 0, 0] 7 16
      (by decide) (by decide)⟩

/-- Witness for C2 at a concrete two-byte buffer, start=4, length=16. -/
theorem c2_intel_matches_reference_witness :
    ((1 ≤ 16 ∧ 16 ≤ 64) ∧
      (Can.extractIntelSignal [171, 205, 0, 0, 0, 0, 0, 0] 4 16 =
        Can.intelReference [171, 205, 0, 0, 0, 0, 0, 0] 4 16 ∧
      ∀ i, i < 16 →
        (Can.extractIntelSignal [171, 205, 0, 0, 0, 0, 0, 0] 4 16).testBit i =
          Can.intelRefBit [171, 205, 0, 0, 0, 0, 0, 0] (4 + i))) :=
  ⟨⟨by decide, by decide⟩,
    c2_intel_matches_reference [171, 205, 0, 0, 0, 0, 0, 0] 4 16
      (by decide) (by decide)⟩

/-- Witness for C3 at a concrete within-byte field (start=7, length=4). -/
theorem c3_motorola_branches_agree_witness :
    (4 ≤ 7 + 1) ∧
    (Can.extractMotorolaWithin [255, 128] 7 4 =
      Can.extractMotorolaCross [255, 128] 7 4 ∧
    Can.extractMotorolaSignal [255, 128] 7 4 =
      Can.extractMotorolaCross [255, 128] 7 4) :=
  ⟨by decide, c3_motorola_branches_agree [255, 128] 7 4 (by decide)⟩

/-- Witness for C4 at the one-byte buffer `[129]`. -/
theorem c4_nonempty_extraction_total_witness :
    (([129] : List ℕ) ≠ []) ∧
    ((∃ v, Can.extractSignalValue [129]
      { Name := "S", StartBit := 0, BitLength := 8, ByteOrder := 0,
        IsSigned := true, Scale := 1, Offset := 0, Min := 0, Max := 0,
        Unit := "" } = Except.ok v) ∧
    (∀ k, Can.extractSignalValue ([129] ++ List.replicate k 0)
      { Name := "S", StartBit := 0, BitLength := 8, ByteOrder := 0,
        IsSigned := true, Scale := 1, Offset := 0, Min := 0, Max := 0,
        Unit := "" } =
      Can.extractSignalValue [129]
      { Name := "S", StartBit := 0, BitLength := 8, ByteOrder := 0,
        IsSigned := true, Scale := 1, Offset := 0, Min := 0, Max := 0,
        Unit := "" })) :=
  ⟨by decide,
    c4_nonempty_extraction_total [129]
      { Name := "S", StartBit := 0, BitLength := 8, ByteOrder := 0,
        IsSigned := true, Scale := 1, Offset := 0, Min := 0, Max := 0,
        Unit := "" } (by decide)⟩

/-! ## Claim C10: DecodeFrame physical value vs ApplyScaleOffset -/

/-- C10: for the Intel signed 8-bit signal with scale=1, offset=0 and
payload byte `0xFF` (raw bits 255, two's-complement −1),
`Decoder.DecodeFrame` stores `float64(sign-extended uint64) = 2^64 − 1`
as the physical value, while `ApplyScaleOffset` on the raw bit-field
reinterprets through `int64` and yields −1: the two computations
diverge for negative signed values. -/
theorem c10_signed_physical_divergence :
    (∃ m, Can.DecodeFrameSignals [255]
        [{ Name := "Temp", StartBit := 0, BitLength := 8, ByteOrder := 1,
           IsSigned := true, Scale := 1, Offset := 0, Min := 0, Max := 0,
           Unit := "" }] (fun _ => none) = Except.ok m ∧
      (m "Temp").map Can.SignalValue.PhysicalValue =
        some (((2 ^ 64 - 1 : ℕ) : ℚ))) ∧
    Can.ApplyScaleOffset 255 1 0 true 8 = -1 ∧
    (((2 ^ 64 - 1 : ℕ) : ℚ)) ≠ -1 := by
  have hraw : Can.extractSignalValue [255]
      { Name := "Temp", StartBit := 0, BitLength := 8, ByteOrder := 1,
        IsSigned := true, Scale := 1, Offset := 0, Min := 0, Max := 0,
        Unit := "" } = Except.ok (2 ^ 64 - 1) := by
    unfold Can.extractSignalValue Can.signExtendGo
    norm_num
    rw [show Can.extractIntelSignal [255] 0 8 = 255 from by decide]
    decide
  refine ⟨⟨fun n => if n = "Temp"
      then some ⟨"Temp", 2 ^ 64 - 1, ((2 ^ 64 - 1 : ℕ) : ℚ) * 1 + 0, ""⟩
      else none, ?_, ?_⟩, ?_, ?_⟩
  · simp only [Can.DecodeFrameSignals, hraw]
  · show some (((2 ^ 64 - 1 : ℕ) : ℚ) * 1 + 0) = some (((2 ^ 64 - 1 : ℕ) : ℚ))
    rw [mul_one, add_zero]
  · unfold Can.ApplyScaleOffset Can.toInt64
    have hand : (255 : ℕ) &&& ((1 <<< (8 - 1)) % 2 ^ 64) = 128 := by decide
    have hmask : (2 ^ 64 + (1 <<< 8) % 2 ^ 64 - 1) % 2 ^ 64 = 255 := by decide
    have hor : (255 : ℕ) ||| (2 ^ 64 - 1 - 255) = 2 ^ 64 - 1 := by decide
    simp only [hand, hmask, hor]
    rw [if_pos (by decide : (128 : ℕ) ≠ 0),
      if_neg (by decide : ¬(2 ^ 64 - 1 : ℕ) < 2 ^ 63)]
    push_cast
    norm_num
  · have h : (0 : ℚ) ≤ ((2 ^ 64 - 1 : ℕ) : ℚ) := Nat.cast_nonneg _
    intro hc
    rw [hc] at h
    norm_num at h

/-! ## Claims C5 - C7: the descriptor-based decoder -/

/-- C6 counterexample: a 1-bit non-float signal with scale 1 — the claim
requires a physical value to be attached, but `decodeSignal` produces a
boolean raw value and the type switch attaches none. -/
theorem c6_one_bit_counterexample :
    ({ Name := "Flag", Start := 0, Length := 1, IsBigEndian := false,
       IsSigned := false, IsFloat := false, IsMultiplexer := false,
       IsMultiplexed := false, MultiplexerValue := 0, Scale := 1, Offset := 0,
       Min := 0, Max := 0, Unit := "", ValueDescriptions := [] } : Dbc.Signal).IsFloat = false ∧
    ({ Name := "Flag", Start := 0, Length := 1, IsBigEndian := false,
       IsSigned := false, IsFloat := false, IsMultiplexer := false,
       IsMultiplexed := false, MultiplexerValue := 0, Scale := 1, Offset := 0,
       Min := 0, Max := 0, Unit := "", ValueDescriptions := [] } : Dbc.Signal).Scale ≠ 0 ∧
    (Dbc.decodeSignal
      { Name := "Flag", Start := 0, Length := 1, IsBigEndian := false,
        IsSigned := false, IsFloat := false, IsMultiplexer := false,
        IsMultiplexed := false, MultiplexerValue := 0, Scale := 1, Offset := 0,
        Min := 0, Max := 0, Unit := "", ValueDescriptions := [] }
      { ID := 1, Length := 8, Data := [1, 0, 0, 0, 0, 0, 0, 0],
        IsExtended := false, IsRemote := false, Timestamp := 0 }).Physical = none := by
  refine ⟨rfl, by norm_num, ?_⟩
  simp [Dbc.decodeSignal]

/-- C6 (amended): a physical value is attached iff the signal is not
float-typed, its bit length is not 1 (1-bit signals decode to a boolean
raw value, which the type switch skips), and at least one of scale,
offset, min, max is nonzero; when attached it equals the raw value (signed
or unsigned) as a float, times scale, plus offset. -/
theorem c6_physical_value_characterization (s : Dbc.Signal) (f : Dbc.TimedFrame) :
    (Dbc.decodeSignal s f).Physical =
      if s.IsFloat = false ∧ s.Length ≠ 1 ∧
          (s.Scale ≠ 0 ∨ s.Offset ≠ 0 ∨ s.Min ≠ 0 ∨ s.Max ≠ 0) then
        some ((if s.IsSigned then ((Dbc.UnmarshalSigned s f.Data : ℤ) : ℚ)
          else (Dbc.UnmarshalUnsigned s f.Data : ℚ)) * s.Scale + s.Offset)
      else none := by
  unfold Dbc.decodeSignal Dbc.ToPhysical
  by_cases h1 : s.Length = 1
  · simp [h1]
  · by_cases h2 : s.IsFloat
    · simp [h1, h2]
    · by_cases h4 : s.Scale ≠ 0 ∨ s.Offset ≠ 0 ∨ s.Min ≠ 0 ∨ s.Max ≠ 0
      · by_cases h3 : s.IsSigned
        · simp [h1, h2, h3, h4]
        · simp [h1, h2, h3, h4]
      · by_cases h3 : s.IsSigned
        · simp [h1, h2, h3, h4]
        · simp [h1, h2, h3, h4]

/-- C7: decoding fails (with an error and no signal map at all) exactly
when the identifier has no matching descriptor or the payload length,
extension flag, or remote flag disagree with it (the descriptor describes
a non-remote data frame); every frame matching its descriptor's shape
decodes successfully. -/
theorem c7_decode_shape_failure (db : List Dbc.Message) (f : Dbc.TimedFrame) :
    (∃ m, Dbc.Decode db f = Except.ok m) ↔
      (∃ msg, db.find? (fun m => m.ID = f.ID) = some msg ∧
        f.Length = msg.Length ∧ f.IsExtended = msg.IsExtended ∧
        f.IsRemote = false) := by
  unfold Dbc.Decode
  cases hfind : db.find? (fun m => m.ID = f.ID) with
  | none =>
    constructor
    · rintro ⟨m, hm⟩
      cases hm
    · rintro ⟨msg, hmsg, _⟩
      cases hmsg
  | some message =>
    dsimp only
    by_cases hshape : f.Length ≠ message.Length ∨ f.IsExtended ≠ message.IsExtended ∨ f.IsRemote = true
    · rw [if_pos hshape]
      constructor
      · rintro ⟨m, hm⟩
        cases hm
      · rintro ⟨msg, hmsg, hlen, hext, hrem⟩
        have hm : msg = message := by
          cases hmsg
          rfl
        subst hm
        rcases hshape with h | h | h
        · exact absurd hlen h
        · exact absurd hext h
        · rw [hrem] at h
          cases h
    · rw [if_neg hshape]
      push_neg at hshape
      constructor
      · intro _
        refine ⟨message, rfl, hshape.1, hshape.2.1, ?_⟩
        have h := hshape.2.2
        cases hr : f.IsRemote
        · rfl
        · exact absurd hr h
      · intro _
        exact ⟨_, rfl⟩

/-- A name not occurring in the signal list is untouched by pass 1. -/
theorem pass1_map_not_mem (f : Dbc.TimedFrame) :
    ∀ (l : List Dbc.Signal) (st : Dbc.Pass1State) (name : String),
      name ∉ l.map Dbc.Signal.Name →
      (Dbc.decodePass1 f l st).map name = st.map name := by
  intro l
  induction l with
  | nil => intro st name _; rfl
  | cons s rest ih =>
    intro st name h
    have hname : ¬name = s.Name := by
      intro hc
      exact h (by simp [hc])
    have hrest : name ∉ rest.map Dbc.Signal.Name := by
      intro hc
      exact h (by simp [hc])
    simp only [Dbc.decodePass1]
    by_cases h1 : s.IsMultiplexed = true
    · rw [if_pos h1]
      exact ih st name hrest
    · rw [if_neg h1]
      by_cases h2 : s.IsMultiplexer = true
      · rw [if_pos h2, ih _ name hrest]
        simp [Dbc.mapInsert, hname]
      · rw [if_neg h2, ih _ name hrest]
        simp [Dbc.mapInsert, hname]

/-- Pass 1 at a member signal's name: untouched if the signal is
multiplexed, otherwise the decoded signal. -/
theorem pass1_map_mem (f : Dbc.TimedFrame) :
    ∀ (l : List Dbc.Signal) (st : Dbc.Pass1State) (s : Dbc.Signal),
      s ∈ l → (l.map Dbc.Signal.Name).Nodup →
      (Dbc.decodePass1 f l st).map s.Name =
        if s.IsMultiplexed = true then st.map s.Name
        else some (Dbc.decodeSignal s f) := by
  intro l
  induction l with
  | nil => intro st s hmem _; cases hmem
  | cons s' rest ih =>
    intro st s hmem hnodup
    have hnodup' : (rest.map Dbc.Signal.Name).Nodup := by
      simp only [List.map_cons, List.nodup_cons] at hnodup
      exact hnodup.2
    have hhead : s'.Name ∉ rest.map Dbc.Signal.Name := by
      simp only [List.map_cons, List.nodup_cons] at hnodup
      exact hnodup.1
    rcases List.mem_cons.mp hmem with heq | hmem'
    · subst heq
      simp only [Dbc.decodePass1]
      by_cases h1 : s.IsMultiplexed = true
      · rw [if_pos h1, pass1_map_not_mem f rest st s.Name hhead, if_pos h1]
      · rw [if_neg h1]
        by_cases h2 : s.IsMultiplexer = true
        · rw [if_pos h2, pass1_map_not_mem f rest _ s.Name hhead]
          simp [Dbc.mapInsert, h1]
        · rw [if_neg h2, pass1_map_not_mem f rest _ s.Name hhead]
          simp [Dbc.mapInsert, h1]
    · have hne : ¬s.Name = s'.Name := by
        intro hc
        exact hhead (hc ▸ List.mem_map_of_mem Dbc.Signal.Name hmem')
      simp only [Dbc.decodePass1]
      by_cases h1 : s'.IsMultiplexed = true
      · rw [if_pos h1]
        exact ih st s hmem' hnodup'
      · rw [if_neg h1]
        by_cases h2 : s'.IsMultiplexer = true
        · rw [if_pos h2, ih _ s hmem' hnodup']
          simp [Dbc.mapInsert, hne]
        · rw [if_neg h2, ih _ s hmem' hnodup']
          simp [Dbc.mapInsert, hne]

/-- Pass 1 leaves the multiplexer state alone when the list contains no
multiplexer switch. -/
theorem pass1_mux_none (f : Dbc.TimedFrame) :
    ∀ (l : List Dbc.Signal) (st : Dbc.Pass1State),
      (∀ s ∈ l, ¬(s.IsMultiplexer = true ∧ s.IsMultiplexed = false)) →
      (Dbc.decodePass1 f l st).mux = st.mux ∧
      (Dbc.decodePass1 f l st).muxVal = st.muxVal := by
  intro l
  induction l with
  | nil => intro st _; exact ⟨rfl, rfl⟩
  | cons s rest ih =>
    intro st h
    have hrest : ∀ x ∈ rest, ¬(x.IsMultiplexer = true ∧ x.IsMultiplexed = false) :=
      fun x hx => h x (List.mem_cons_of_mem s hx)
    simp only [Dbc.decodePass1]
    by_cases h1 : s.IsMultiplexed = true
    · rw [if_pos h1]
      exact ih st hrest
    · rw [if_neg h1]
      by_cases h2 : s.IsMultiplexer = true
      · exact absurd ⟨h2, Bool.eq_false_iff.mpr h1⟩ (h s (List.mem_cons_self s rest))
      · rw [if_neg h2]
        exact ih _ hrest

/-- Pass 1 records the (unique) multiplexer switch and its raw value. -/
theorem pass1_mux_found (f : Dbc.TimedFrame) :
    ∀ (l : List Dbc.Signal) (st : Dbc.Pass1State) (mux : Dbc.Signal),
      mux ∈ l → mux.IsMultiplexer = true → mux.IsMultiplexed = false →
      (∀ s ∈ l, s.IsMultiplexer = true → s.IsMultiplexed = false → s = mux) →
      (Dbc.decodePass1 f l st).mux = some mux ∧
      (Dbc.decodePass1 f l st).muxVal = Dbc.UnmarshalUnsigned mux f.Data := by
  intro l
  induction l with
  | nil => intro st mux hmem _ _ _; cases hmem
  | cons s' rest ih =>
    intro st mux hmem hswitch hnotm huniq
    have huniq' : ∀ s ∈ rest, s.IsMultiplexer = true → s.IsMultiplexed = false → s = mux :=
      fun s hs => huniq s (List.mem_cons_of_mem s' hs)
    rcases List.mem_cons.mp hmem with heq | hmem'
    · subst heq
      simp only [Dbc.decodePass1]
      rw [if_neg (by rw [hnotm]; exact Bool.false_ne_true), if_pos hswitch]
      by_cases hrest : mux ∈ rest
      · exact ih _ mux hrest hswitch hnotm huniq'
      · have hnone : ∀ s ∈ rest, ¬(s.IsMultiplexer = true ∧ s.IsMultiplexed = false) := by
          rintro s hs ⟨ha, hb⟩
          exact hrest ((huniq' s hs ha hb) ▸ hs)
        have h := pass1_mux_none f rest
          { map := Dbc.mapInsert st.map mux.Name (Dbc.decodeSignal mux f),
            mux := some mux, muxVal := Dbc.UnmarshalUnsigned mux f.Data } hnone
        exact ⟨h.1, h.2⟩
    · simp only [Dbc.decodePass1]
      by_cases h1 : s'.IsMultiplexed = true
      · rw [if_pos h1]
        exact ih st mux hmem' hswitch hnotm huniq'
      · rw [if_neg h1]
        by_cases h2 : s'.IsMultiplexer = true
        · have hs' : s' = mux := huniq s' (List.mem_cons_self s' rest) h2 (Bool.eq_false_iff.mpr h1)
          subst hs'
          rw [if_pos h2]
          by_cases hrest : s' ∈ rest
          · exact ih _ s' hrest hswitch hnotm huniq'
          · have hnone : ∀ s ∈ rest, ¬(s.IsMultiplexer = true ∧ s.IsMultiplexed = false) := by
              rintro s hs ⟨ha, hb⟩
              exact hrest ((huniq' s hs ha hb) ▸ hs)
            have h := pass1_mux_none f rest
              { map := Dbc.mapInsert st.map s'.Name (Dbc.decodeSignal s' f),
                mux := some s', muxVal := Dbc.UnmarshalUnsigned s' f.Data } hnone
            exact ⟨h.1, h.2⟩
        · rw [if_neg h2]
          exact ih _ mux hmem' hswitch hnotm huniq'

/-- A name not occurring in the signal list is untouched by pass 2. -/
theorem pass2_map_not_mem (f : Dbc.TimedFrame) (muxVal : ℕ) :
    ∀ (l : List Dbc.Signal) (m : Dbc.SignalMap) (name : String),
      name ∉ l.map Dbc.Signal.Name →
      Dbc.decodePass2 f muxVal l m name = m name := by
  intro l
  induction l with
  | nil => intro m name _; rfl
  | cons s rest ih =>
    intro m name h
    have hname : ¬name = s.Name := by
      intro hc
      exact h (by simp [hc])
    have hrest : name ∉ rest.map Dbc.Signal.Name := by
      intro hc
      exact h (by simp [hc])
    simp only [Dbc.decodePass2]
    by_cases h1 : s.IsMultiplexed = false
    · rw [if_pos h1]
      exact ih m name hrest
    · rw [if_neg h1]
      by_cases h2 : muxVal = s.MultiplexerValue
      · rw [if_pos h2, ih _ name hrest]
        simp [Dbc.mapInsert, hname]
      · rw [if_neg h2]
        exact ih m name hrest

/-- Pass 2 at a member signal's name: the decoded signal if it is an
active multiplexed signal, the incoming map entry otherwise. -/
theorem pass2_map_mem (f : Dbc.TimedFrame) (muxVal : ℕ) :
    ∀ (l : List Dbc.Signal) (m : Dbc.SignalMap) (s : Dbc.Signal),
      s ∈ l → (l.map Dbc.Signal.Name).Nodup →
      Dbc.decodePass2 f muxVal l m s.Name =
        if s.IsMultiplexed = true ∧ muxVal = s.MultiplexerValue
        then some (Dbc.decodeSignal s f) else m s.Name := by
  intro l
  induction l with
  | nil => intro m s hmem _; cases hmem
  | cons s' rest ih =>
    intro m s hmem hnodup
    have hnodup' : (rest.map Dbc.Signal.Name).Nodup := by
      simp only [List.map_cons, List.nodup_cons] at hnodup
      exact hnodup.2
    have hhead : s'.Name ∉ rest.map Dbc.Signal.Name := by
      simp only [List.map_cons, List.nodup_cons] at hnodup
      exact hnodup.1
    rcases List.mem_cons.mp hmem with heq | hmem'
    · subst heq
      simp only [Dbc.decodePass2]
      by_cases h1 : s.IsMultiplexed = false
      · rw [if_pos h1, pass2_map_not_mem f muxVal rest m s.Name hhead]
        simp [h1]
      · have h1' : s.IsMultiplexed = true := by
          cases hb : s.IsMultiplexed
          · exact absurd hb h1
          · rfl
        rw [if_neg h1]
        by_cases h2 : muxVal = s.MultiplexerValue
        · rw [if_pos h2, pass2_map_not_mem f muxVal rest _ s.Name hhead]
          simp [Dbc.mapInsert, h1', h2]
        · rw [if_neg h2, pass2_map_not_mem f muxVal rest m s.Name hhead]
          simp [h1', h2]
    · have hne : ¬s.Name = s'.Name := by
        intro hc
        exact hhead (hc ▸ List.mem_map_of_mem Dbc.Signal.Name hmem')
      simp only [Dbc.decodePass2]
      by_cases h1 : s'.IsMultiplexed = false
      · rw [if_pos h1]
        exact ih m s hmem' hnodup'
      · rw [if_neg h1]
        by_cases h2 : muxVal = s'.MultiplexerValue
        · rw [if_pos h2, ih _ s hmem' hnodup']
          simp [Dbc.mapInsert, hne]
        · rw [if_neg h2]
          exact ih m s hmem' hnodup'

/-- C5: for a message with exactly one multiplexer switch (and distinct
signal names), decoding includes every non-multiplexed signal and the
switch, and includes a multiplexed signal exactly when its declared
multiplexer value equals the switch's raw value; non-matching multiplexed
signals are entirely absent from the map. -/
theorem c5_multiplexer_resolution (db : List Dbc.Message) (f : Dbc.TimedFrame)
    (msg mux : _) (hfind : db.find? (fun m => m.ID = f.ID) = some msg)
    (hlen : f.Length = msg.Length) (hext : f.IsExtended = msg.IsExtended)
    (hrem : f.IsRemote = false)
    (hmem : mux ∈ msg.Signals) (hswitch : mux.IsMultiplexer = true)
    (hnotm : mux.IsMultiplexed = false)
    (huniq : ∀ s ∈ msg.Signals, s.IsMultiplexer = true → s.IsMultiplexed = false → s = mux)
    (hnodup : (msg.Signals.map Dbc.Signal.Name).Nodup) :
    ∃ res, Dbc.Decode db f = Except.ok res ∧
      ∀ s ∈ msg.Signals,
        res s.Name =
          if s.IsMultiplexed = false ∨
              Dbc.UnmarshalUnsigned mux f.Data = s.MultiplexerValue
          then some (Dbc.decodeSignal s f) else none := by
  unfold Dbc.Decode
  rw [hfind]
  dsimp only
  have hshape : ¬(f.Length ≠ msg.Length ∨ f.IsExtended ≠ msg.IsExtended ∨ f.IsRemote = true) := by
    rintro (h | h | h)
    · exact h hlen
    · exact h hext
    · rw [hrem] at h
      cases h
  rw [if_neg hshape]
  have hmux := pass1_mux_found f msg.Signals
    { map := fun _ => none, mux := none, muxVal := 0 } mux hmem hswitch hnotm huniq
  refine ⟨_, rfl, ?_⟩
  intro s hs
  rw [hmux.1, hmux.2]
  dsimp only
  rw [pass2_map_mem f _ msg.Signals _ s hs hnodup,
    pass1_map_mem f msg.Signals _ s hs hnodup]
  by_cases hm : s.IsMultiplexed = true
  · by_cases hv : Dbc.UnmarshalUnsigned mux f.Data = s.MultiplexerValue
    · rw [if_pos ⟨hm, hv⟩, if_pos (Or.inr hv)]
    · have hnot : ¬(s.IsMultiplexed = false ∨
          Dbc.UnmarshalUnsigned mux f.Data = s.MultiplexerValue) := by
        rintro (hc | hc)
        · rw [hm] at hc
          cases hc
        · exact hv hc
      rw [if_neg (by rintro ⟨_, hc⟩; exact hv hc), if_pos hm, if_neg hnot]
  · have hm' : s.IsMultiplexed = false := by
      cases hb : s.IsMultiplexed
      · rfl
      · exact absurd hb hm
    rw [if_neg (by rintro ⟨hc, _⟩; exact hm hc), if_neg (by rw [hm']; exact Bool.false_ne_true)]
    rw [if_pos (Or.inl hm')]

/-- Witness for C5 at the concrete scenario: the frame sets the switch to
1, so signal "A" (value 1) is decoded and signal "B" (value 0) is absent. -/
theorem c5_multiplexer_resolution_witness :
    (List.find? (fun m => m.ID = Examples.c5Frame.ID) [Examples.c5Msg] =
        some Examples.c5Msg ∧
      Examples.c5Frame.Length = Examples.c5Msg.Length ∧
      Examples.c5Frame.IsExtended = Examples.c5Msg.IsExtended ∧
      Examples.c5Frame.IsRemote = false ∧
      Examples.c5Mux ∈ Examples.c5Msg.Signals ∧
      Examples.c5Mux.IsMultiplexer = true ∧
      Examples.c5Mux.IsMultiplexed = false ∧
      (∀ s ∈ Examples.c5Msg.Signals, s.IsMultiplexer = true →
        s.IsMultiplexed = false → s = Examples.c5Mux) ∧
      (Examples.c5Msg.Signals.map Dbc.Signal.Name).Nodup) ∧
    (∃ res, Dbc.Decode [Examples.c5Msg] Examples.c5Frame = Except.ok res ∧
      ∀ s ∈ Examples.c5Msg.Signals,
        res s.Name =
          if s.IsMultiplexed = false ∨
              Dbc.UnmarshalUnsigned Examples.c5Mux Examples.c5Frame.Data =
                s.MultiplexerValue
          then some (Dbc.decodeSignal s Examples.c5Frame) else none) :=
  ⟨⟨by decide, by decide, by decide, by decide, by decide, by decide,
      by decide, by decide, by decide⟩,
    c5_multiplexer_resolution [Examples.c5Msg] Examples.c5Frame
      Examples.c5Msg Examples.c5Mux (by decide) (by decide) (by decide)
      (by decide) (by decide) (by decide) (by decide) (by decide) (by decide)⟩

/-! ## Claims C8 - C9: the MCAP writer registry -/

/-- C8: on a fresh writer, the first channel resolution in
`pkg/mcap/writer.go` allocates handle ID 2 (the counter is incremented
before the assignment), contradicting the claim's "starting at 1"; the
part_001 revision of `ensureChannel` allocates handle ID 1 as claimed. -/
theorem c8_first_handle_id_divergence :
    (McapOld.ensureChannel Mcap.initialWriter 256 false "Msg" "Sig" "").1 = 2 ∧
    ((McapOld.ensureChannel Mcap.initialWriter 256 false "Msg" "Sig" "").2.written.map
      Mcap.ChannelRec.ID) = [2] ∧
    (McapNew.ensureChannel Mcap.initialWriter 256 false "Msg" "Sig" "").1 = 1 ∧
    ((McapNew.ensureChannel Mcap.initialWriter 256 false "Msg" "Sig" "").2.written.map
      Mcap.ChannelRec.ID) = [1] ∧
    (2 : ℕ) ≠ 1 := by
  refine ⟨rfl, rfl, rfl, rfl, by decide⟩

/-- C9: writing a decoded signal whose timestamp is set to 5 ns at
wall-clock time 7 ns: the `pkg/mcap/writer.go` revision emits
log-time = publish-time = 5 as claimed, but the part_001 revision sets
publish-time from the wall clock (7), diverging from the signal's capture
timestamp. -/
theorem c9_publish_time_divergence :
    (McapOld.WriteDecodedSignal Mcap.initialWriter 7 Examples.c9Ds).2.LogTime = 5 ∧
    (McapOld.WriteDecodedSignal Mcap.initialWriter 7 Examples.c9Ds).2.PublishTime = 5 ∧
    (McapNew.WriteDecodedSignal Mcap.initialWriter 7 Examples.c9Ds).2.LogTime = 5 ∧
    (McapNew.WriteDecodedSignal Mcap.initialWriter 7 Examples.c9Ds).2.PublishTime = 7 ∧
    (7 : ℕ) ≠ 5 := by
  refine ⟨rfl, rfl, rfl, rfl, by decide⟩
